import Mathlib

/-!
Verification of the incremental data-synchronization pipeline
(`src/main_script.py`, class `CMSHospitalDataPipeline`).

Strings are modelled as lists of unicode characters (`Str := List Char`);
Python's `str.lower` is modelled by mapping `Char.toLower` over the list,
and Python's substring test `needle in haystack` by the executable
function `hasSub`.  Dataset descriptors, the persisted metadata mapping
and every pipeline step are translated directly from the source.
-/

abbrev Str := List Char

/-- Model of Python `str.lower` applied to a whole string. -/
def lowerStr (s : Str) : Str := s.map Char.toLower

/-- Does the haystack start with the needle?  (Helper for `hasSub`.) -/
def leadsWith : Str → Str → Bool
  | [], _ => true
  | _ :: _, [] => false
  | a :: xs, b :: ys => a = b && leadsWith xs ys

/-- Model of Python `needle in haystack`: contiguous-substring containment. -/
def hasSub (needle : Str) : Str → Bool
  | [] => leadsWith needle []
  | c :: rest => leadsWith needle (c :: rest) || hasSub needle rest

/-- The apostrophe character (code point 39). -/
def apoChar : Char := Char.ofNat 39

/-- The double-quote character (code point 34). -/
def quoteChar : Char := Char.ofNat 34

/-- The backquote character (code point 96). -/
def backChar : Char := Char.ofNat 96

/-- A dataset descriptor as read from the catalog JSON: the fields the
pipeline accesses (`identifier`, `title`, `description`, `theme`,
`keyword`, `modified`, `distribution`).  `modified` is optional
(`dataset.get('modified')`), `distribution` is the list of download
URLs (first element is the one used). -/
structure Dataset where
  identifier : Str
  title : Str
  description : Str
  theme : List Str
  keyword : List Str
  modified : Option Str
  distribution : List Str
deriving DecidableEq

/-- The persisted metadata: the `"files"` dict mapping identifier to the
last-synced `modified` marker, modelled as an insertion-ordered
association list (Python dict semantics). -/
structure Metadata where
  files : List (Str × Option Str)
deriving DecidableEq

/-- Dict lookup on the `files` association list. -/
def lookupFile : List (Str × Option Str) → Str → Option (Option Str)
  | [], _ => none
  | (k, v) :: rest, key => if k = key then some v else lookupFile rest key

/-- Dict assignment `files[k] = v`: replace in place if the key exists,
otherwise append at the end (Python dict insertion-order semantics). -/
def setFile : List (Str × Option Str) → Str → Option Str → List (Str × Option Str)
  | [], k, v => [(k, v)]
  | (k', v') :: rest, k, v =>
      if k' = k then (k, v) :: rest else (k', v') :: setFile rest k v

/-- The configured topic filter, `config['THEME_FILTER'] = 'hospitals'`. -/
def THEME_FILTER : Str := ['h', 'o', 's', 'p', 'i', 't', 'a', 'l', 's']

/-- The hardcoded literal `'hospital'` from the filter's secondary match. -/
def hospitalLit : Str := ['h', 'o', 's', 'p', 'i', 't', 'a', 'l']

/-- The per-dataset condition of `step6_filter_hospital_datasets`
(the boolean `is_hospital_related` computed inside the loop);
`theme_filter` is already lowercased by the caller. -/
def is_hospital_related (theme_filter : Str) (d : Dataset) : Bool :=
  let title := lowerStr d.title
  let description := lowerStr d.description
  hasSub theme_filter title ||
    hasSub theme_filter description ||
    d.theme.any (fun t => hasSub theme_filter (lowerStr t)) ||
    d.keyword.any (fun k => hasSub theme_filter (lowerStr k)) ||
    hasSub hospitalLit title ||
    hasSub hospitalLit description

/-- `step6_filter_hospital_datasets`: lowercase the configured topic and
keep (in order, by appending to an accumulator) the datasets whose
`is_hospital_related` condition holds. -/
def step6_filter_hospital_datasets (topic : Str) (all_datasets : List Dataset) : List Dataset :=
  let theme_filter := lowerStr topic
  all_datasets.foldl
    (fun acc d => if is_hospital_related theme_filter d then acc ++ [d] else acc) []

/-- The per-dataset condition of `step7_find_new_or_updated_files`:
`file_id not in metadata["files"] or metadata["files"][file_id] != last_modified`. -/
def shouldDownload (metadata : Metadata) (d : Dataset) : Bool :=
  match lookupFile metadata.files d.identifier with
  | none => true
  | some stored => decide (stored ≠ d.modified)

/-- `step7_find_new_or_updated_files`: keep (in order) the datasets that
are new or whose stored marker differs from the current one. -/
def step7_find_new_or_updated_files (datasets : List Dataset) (metadata : Metadata) :
    List Dataset :=
  datasets.foldl (fun acc d => if shouldDownload metadata d then acc ++ [d] else acc) []

/-- `step12_update_metadata`: for each processed dataset, assign
`metadata["files"][identifier] = modified`. -/
def step12_update_metadata (metadata : Metadata) (processed_datasets : List Dataset) :
    Metadata :=
  ⟨processed_datasets.foldl (fun fs d => setFile fs d.identifier d.modified) metadata.files⟩

/-! The header normalizer `step10_clean_column_name` and its building blocks. -/

/-- Model of Python `s.replace(str(c), "")`: delete every occurrence of `c`. -/
def removeChar (c : Char) (s : Str) : Str := s.filter (fun x => decide (x ≠ c))

/-- Model of Python `s.replace(str(c), "_")`: replace every occurrence of
`c` by an underscore. -/
def replaceChar (c : Char) (s : Str) : Str := s.map (fun x => if x = c then '_' else x)

/-- The two-underscore needle of the collapse loop. -/
def dunder : Str := ['_', '_']

/-- Model of the loop guard `"__" in clean_name`. -/
def dunderIn (s : Str) : Bool := hasSub dunder s

/-- Model of one call `s.replace("__", "_")`: replace non-overlapping
occurrences of a double underscore left to right. -/
def replaceDunder : Str → Str
  | [] => []
  | [c] => [c]
  | c1 :: c2 :: rest =>
      if c1 = '_' ∧ c2 = '_' then '_' :: replaceDunder rest
      else c1 :: replaceDunder (c2 :: rest)

/-- The collapse loop `while "__" in s: s = s.replace("__", "_")`, run with
an explicit fuel budget.  A budget of `s.length` always suffices because
each iteration of the loop strictly shortens the string. -/
def collapseFuel : Nat → Str → Str
  | 0, s => s
  | n + 1, s => if dunderIn s then collapseFuel n (replaceDunder s) else s

/-- The collapse loop of `step10_clean_column_name`. -/
def collapse (s : Str) : Str := collapseFuel s.length s

/-- Model of `if s.startswith("_"): s = s[1:]`. -/
def stripLead (s : Str) : Str :=
  match s with
  | [] => []
  | c :: rest => if c = '_' then rest else c :: rest

/-- Model of `if s.endswith("_"): s = s[:-1]`. -/
def stripTrail (s : Str) : Str :=
  if s.getLast? = some '_' then s.dropLast else s

/-- `step10_clean_column_name`, translated statement by statement from the
source: lowercase, delete apostrophe, double quote and backquote, replace
each bracket, percent, ampersand, hyphen and space by an underscore,
collapse double underscores, then strip one leading and one trailing
underscore. -/
def step10_clean_column_name (column_name : Str) : Str :=
  let c1 := lowerStr column_name
  let c2 := removeChar apoChar c1
  let c3 := removeChar quoteChar c2
  let c4 := removeChar backChar c3
  let c5 := replaceChar '(' c4
  let c6 := replaceChar ')' c5
  let c7 := replaceChar '%' c6
  let c8 := replaceChar '&' c7
  let c9 := replaceChar '-' c8
  let c10 := replaceChar ' ' c9
  let c11 := collapse c10
  let c12 := stripLead c11
  stripTrail c12

/-! Spec-side formulation of the normalizer (used for the refinement
claim): one deletion pass, one replacement pass, and a direct
run-squashing function instead of the iterated replace loop. -/

/-- Characters the spec deletes: apostrophe, double quote, backquote. -/
def specRemoved (c : Char) : Bool := c = apoChar || c = quoteChar || c = backChar

/-- Characters the spec replaces by an underscore. -/
def specReplaced (c : Char) : Bool :=
  c = '(' || c = ')' || c = '%' || c = '&' || c = '-' || c = ' '

/-- Modelled from the spec: map every maximal run of consecutive
underscores to a single underscore, in one pass. -/
def squashRuns : Str → Str
  | [] => []
  | c :: rest =>
      if c = '_' then '_' :: squashRuns (rest.dropWhile (fun x => decide (x = '_')))
      else c :: squashRuns rest
termination_by s => s.length
decreasing_by
  · exact Nat.lt_succ_of_le ((List.dropWhile_sublist _).length_le)
  · simp

/-- Modelled from the spec: lowercase, delete the three quote characters,
replace the six listed characters by underscores, collapse every maximal
underscore run, strip one leading and one trailing underscore. -/
def spec_normalize (s : Str) : Str :=
  let s1 := lowerStr s
  let s2 := s1.filter (fun c => !(specRemoved c))
  let s3 := s2.map (fun c => if specReplaced c then '_' else c)
  stripTrail (stripLead (squashRuns s3))

/-! The download, transform and orchestration steps.  Network and disk are
modelled by passing file contents around directly: a downloaded file is
its parsed CSV content (a list of rows of cells) paired with the dataset
identifier, and the network is an oracle from URL to content. -/

/-- A parsed CSV file: a list of rows, each a list of cells. -/
abbrev Csv := List (List Str)

/-- The exceptions a worker can raise: the explicit `ValueError` for a
missing distribution, a network failure during retrieval, and the
`StopIteration` of `next(csv_reader)` on a headerless file. -/
inductive PipelineError where
  | noDistribution (id : Str)
  | downloadFailed (id : Str)
  | emptyFile (id : Str)
deriving DecidableEq

/-- `step8_download_single_file`: fail if the dataset has no
distribution, otherwise retrieve the first distribution URL through the
network oracle and return the content paired with the identifier. -/
def step8_download_single_file (net : Str → Option Csv) (dataset : Dataset) :
    Except PipelineError (Csv × Str) :=
  match dataset.distribution with
  | [] => Except.error (PipelineError.noDistribution dataset.identifier)
  | url :: _ =>
    match net url with
    | none => Except.error (PipelineError.downloadFailed dataset.identifier)
    | some content => Except.ok (content, dataset.identifier)

/-- `step9_download_files_parallel`: `list(executor.map(...))` collects
results in input order and re-raises the first (in input order) worker
exception, which is exactly the behavior of `mapM` in the exception
monad. -/
def step9_download_files_parallel (net : Str → Option Csv)
    (datasets_to_download : List Dataset) : Except PipelineError (List (Csv × Str)) :=
  datasets_to_download.mapM (step8_download_single_file net)

/-- `step11_process_single_file`: `next(csv_reader)` raises on an empty
file; otherwise the cleaned file is the normalized header row followed by
the remaining rows unchanged. -/
def step11_process_single_file (content : Csv) (file_id : Str) :
    Except PipelineError Csv :=
  match content with
  | [] => Except.error (PipelineError.emptyFile file_id)
  | original_headers :: rows =>
      Except.ok ((original_headers.map step10_clean_column_name) :: rows)

/-- `step11_process_files_parallel`: same `executor.map` collection over
the download results. -/
def step11_process_files_parallel (download_results : List (Csv × Str)) :
    Except PipelineError (List Csv) :=
  download_results.mapM (fun fi => step11_process_single_file fi.1 fi.2)

/-- Observable outcome of one `run_complete_pipeline` call: the download
and transform results it obtained, the metadata it persisted (`none`
when `step4_save_metadata` was never reached), and the exception that
escaped the run, if any. -/
structure RunResult where
  downloadResults : List (Csv × Str)
  processedResults : List Csv
  savedState : Option Metadata
  failure : Option PipelineError
deriving DecidableEq

/-- `run_complete_pipeline`: load state, filter the catalog, diff against
state, stop early when nothing changed, otherwise download, transform,
update the metadata from the diff set and persist it.  An exception in
either concurrent phase escapes the run before any metadata update. -/
def run_complete_pipeline (metadata : Metadata) (all_datasets : List Dataset)
    (net : Str → Option Csv) : RunResult :=
  let hospital_datasets := step6_filter_hospital_datasets THEME_FILTER all_datasets
  let new_files := step7_find_new_or_updated_files hospital_datasets metadata
  if new_files.isEmpty then
    ⟨[], [], none, none⟩
  else
    match step9_download_files_parallel net new_files with
    | Except.error e => ⟨[], [], none, some e⟩
    | Except.ok download_results =>
      match step11_process_files_parallel download_results with
      | Except.error e => ⟨download_results, [], none, some e⟩
      | Except.ok processed_results =>
          ⟨download_results, processed_results,
            some (step12_update_metadata metadata new_files), none⟩

/-- A descriptor with identifier `a` and marker `1`. -/
def dsA : Dataset := ⟨['a'], [], [], [], [], some ['1'], []⟩

/-- A state that stores marker `2` for identifier `a`: lexicographically
later than `1`, so the candidate's marker moves backward. -/
def mdBack : Metadata := ⟨[(['a'], some ['2'])]⟩

/-! Claim C2: idempotence of the diff phase after a metadata update. -/

/-- A second descriptor with the same identifier `a` but marker `2`. -/
def dsA2 : Dataset := ⟨['a'], [], [], [], [], some ['2'], []⟩

/-- The empty prior state. -/
def emptyMeta : Metadata := ⟨[]⟩

/-- A hospital-titled descriptor already recorded in the state under its
current marker. -/
def dsSynced : Dataset :=
  ⟨['b'], hospitalLit, [], [], [], some ['3'], [['u']]⟩

/-- A state that already stores marker `3` for identifier `b`. -/
def mdSynced : Metadata := ⟨[(['b'], some ['3'])]⟩

/-- A new hospital-titled descriptor, absent from the state, with one
distribution URL. -/
def dsNew : Dataset := ⟨['c'], hospitalLit, [], [], [], some ['4'], [['u']]⟩

/-- A network oracle that returns a two-row CSV for every URL. -/
def netOne : Str → Option Csv := fun _ => some [[['h']], [['v']]]

/-- A descriptor whose distribution list is empty, so its download worker
raises `ValueError`. -/
def dsNoDist : Dataset := ⟨['d'], hospitalLit, [], [], [], some ['5'], []⟩

/-- The example header from the spec, the string `Patient's Name (%)`. -/
def patientsName : Str :=
  ['P', 'a', 't', 'i', 'e', 'n', 't', apoChar, 's', ' ', 'N', 'a', 'm', 'e', ' ', '(', '%', ')']

/-! Theorems: the ten claims and their supporting lemmas. -/

/-! Basic lemmas about the loop-with-append pattern and the dict model. -/

theorem foldl_append_filter {α : Type} (p : α → Bool) (l acc : List α) :
    l.foldl (fun a d => if p d then a ++ [d] else a) acc = acc ++ l.filter p := by
  induction l generalizing acc with
  | nil => simp
  | cons x xs ih => by_cases h : p x <;> simp [List.filter_cons, h, ih]

theorem step6_eq_filter (topic : Str) (l : List Dataset) :
    step6_filter_hospital_datasets topic l =
      l.filter (is_hospital_related (lowerStr topic)) := by
  simpa [step6_filter_hospital_datasets] using
    foldl_append_filter (is_hospital_related (lowerStr topic)) l []

theorem step7_eq_filter (l : List Dataset) (md : Metadata) :
    step7_find_new_or_updated_files l md = l.filter (shouldDownload md) := by
  simpa [step7_find_new_or_updated_files] using
    foldl_append_filter (shouldDownload md) l []

theorem lookup_setFile_self (fs : List (Str × Option Str)) (k : Str) (v : Option Str) :
    lookupFile (setFile fs k v) k = some v := by
  induction fs with
  | nil => simp [setFile, lookupFile]
  | cons p rest ih =>
    obtain ⟨k', v'⟩ := p
    by_cases h : k' = k <;> simp [setFile, lookupFile, h, ih]

theorem lookup_setFile_ne (fs : List (Str × Option Str)) (k k' : Str) (v : Option Str)
    (h : k' ≠ k) : lookupFile (setFile fs k v) k' = lookupFile fs k' := by
  induction fs with
  | nil => simp [setFile, lookupFile, Ne.symm h]
  | cons p rest ih =>
    obtain ⟨k₀, v₀⟩ := p
    by_cases h₀ : k₀ = k
    · subst h₀
      simp [setFile, lookupFile, Ne.symm h]
    · simp only [setFile, if_neg h₀, lookupFile]
      by_cases h₁ : k₀ = k' <;> simp [h₁, ih]

theorem lookup_foldl_setFile_notMem (l : List Dataset) (fs : List (Str × Option Str))
    (k : Str) (hk : k ∉ l.map (fun d => d.identifier)) :
    lookupFile (l.foldl (fun fs d => setFile fs d.identifier d.modified) fs) k =
      lookupFile fs k := by
  induction l generalizing fs with
  | nil => rfl
  | cons x xs ih =>
    simp only [List.map_cons, List.mem_cons, not_or] at hk
    simp only [List.foldl_cons]
    rw [ih _ hk.2, lookup_setFile_ne _ _ _ _ hk.1]

theorem lookup_foldl_setFile_mem (l : List Dataset) (fs : List (Str × Option Str))
    (d : Dataset) (hn : (l.map (fun x => x.identifier)).Nodup) (hd : d ∈ l) :
    lookupFile (l.foldl (fun fs d => setFile fs d.identifier d.modified) fs) d.identifier =
      some d.modified := by
  induction l generalizing fs with
  | nil => cases hd
  | cons x xs ih =>
    simp only [List.map_cons, List.nodup_cons] at hn
    simp only [List.foldl_cons]
    rcases List.mem_cons.mp hd with h | h
    · subst h
      rw [lookup_foldl_setFile_notMem _ _ _ hn.1, lookup_setFile_self]
    · exact ih _ hn.2 h

/-! Claim C1: characterization of the change-detection diff. -/

theorem shouldDownload_iff (md : Metadata) (d : Dataset) :
    shouldDownload md d = true ↔
      (lookupFile md.files d.identifier = none ∨
        ∃ stored, lookupFile md.files d.identifier = some stored ∧
          stored ≠ d.modified) := by
  cases hcase : lookupFile md.files d.identifier with
  | none => simp [shouldDownload, hcase]
  | some stored => simp [shouldDownload, hcase]

/-- C1: the diff `step7_find_new_or_updated_files` includes a candidate
descriptor of its input if and only if the candidate's identifier is
absent from the state's files mapping, or is present with a stored
marker that is not exactly equal to the candidate's modified marker
(plain inequality, independent of any ordering of markers). -/
theorem change_detection_iff (datasets : List Dataset) (metadata : Metadata)
    (d : Dataset) (hd : d ∈ datasets) :
    d ∈ step7_find_new_or_updated_files datasets metadata ↔
      (lookupFile metadata.files d.identifier = none ∨
        ∃ stored, lookupFile metadata.files d.identifier = some stored ∧
          stored ≠ d.modified) := by
  rw [step7_eq_filter, List.mem_filter, ← shouldDownload_iff]
  simp [hd]

/-- C1 witness: at the concrete input where the stored marker moved
backward relative to the candidate's marker, the characterization holds
(and the candidate is indeed included because the markers differ). -/
theorem change_detection_iff_witness :
    dsA ∈ [dsA] ∧
      (dsA ∈ step7_find_new_or_updated_files [dsA] mdBack ↔
        (lookupFile mdBack.files dsA.identifier = none ∨
          ∃ stored, lookupFile mdBack.files dsA.identifier = some stored ∧
            stored ≠ dsA.modified)) :=
  ⟨List.mem_singleton.mpr rfl,
    change_detection_iff [dsA] mdBack dsA (List.mem_singleton.mpr rfl)⟩

/-- C2 counterexample: with a catalog that repeats one identifier under
two different markers (violating the descriptor-uniqueness invariant),
recording the diff via `step12_update_metadata` and diffing the same
catalog again does not yield the empty sequence, so the claim is false
for arbitrary catalog sequences. -/
theorem diff_idempotence_counterexample :
    step7_find_new_or_updated_files [dsA, dsA2]
      (step12_update_metadata emptyMeta
        (step7_find_new_or_updated_files [dsA, dsA2] emptyMeta)) ≠ [] := by
  decide

/-- C2 (amended): for every catalog whose descriptors carry pairwise
distinct identifiers (the data-model invariant) and every state,
updating the state's files mapping with the diff's identifier-to-marker
pairs, as `step12_update_metadata` does, makes a second diff of the same
catalog empty. -/
theorem diff_after_update_empty (cat : List Dataset) (st : Metadata)
    (hn : (cat.map (fun d => d.identifier)).Nodup) :
    step7_find_new_or_updated_files cat
      (step12_update_metadata st (step7_find_new_or_updated_files cat st)) = [] := by
  rw [step7_eq_filter, List.filter_eq_nil_iff]
  intro d hd
  have hdiffn : ((step7_find_new_or_updated_files cat st).map
      (fun d => d.identifier)).Nodup := by
    rw [step7_eq_filter]
    exact List.Nodup.sublist (List.Sublist.map _ (List.filter_sublist _)) hn
  by_cases hsd : shouldDownload st d = true
  · have hmem : d ∈ step7_find_new_or_updated_files cat st := by
      rw [step7_eq_filter]
      exact List.mem_filter.mpr ⟨hd, hsd⟩
    have hlook := lookup_foldl_setFile_mem
      (step7_find_new_or_updated_files cat st) st.files d hdiffn hmem
    simp only [step12_update_metadata]
    simp [shouldDownload, hlook]
  · have hnotin : d.identifier ∉
        (step7_find_new_or_updated_files cat st).map (fun x => x.identifier) := by
      intro hin
      obtain ⟨e, he, heid⟩ := List.mem_map.mp hin
      have hecat : e ∈ cat := by
        rw [step7_eq_filter] at he
        exact (List.mem_filter.mp he).1
      have : e = d := List.inj_on_of_nodup_map hn hecat hd heid
      subst this
      rw [step7_eq_filter] at he
      exact hsd (List.mem_filter.mp he).2
    have hlook := lookup_foldl_setFile_notMem
      (step7_find_new_or_updated_files cat st) st.files d.identifier hnotin
    cases hc : lookupFile st.files d.identifier with
    | none =>
      exact absurd (by simp [shouldDownload, hc]) hsd
    | some stored =>
      have hstored : stored = d.modified := by
        by_contra hne
        exact hsd (by simp [shouldDownload, hc, hne])
      simp only [step12_update_metadata]
      simp [shouldDownload, hlook, hc, hstored]

/-- C2 (amended) witness: for the singleton catalog with identifier `a`
the uniqueness hypothesis holds and the second diff is empty. -/
theorem diff_after_update_empty_witness :
    (([dsA].map (fun d => d.identifier)).Nodup) ∧
      step7_find_new_or_updated_files [dsA]
        (step12_update_metadata emptyMeta
          (step7_find_new_or_updated_files [dsA] emptyMeta)) = [] :=
  ⟨by decide, diff_after_update_empty [dsA] emptyMeta (by decide)⟩

/-! Claims C3, C4 and C9: behavior of the orchestrator. -/

/-- C9: when the diff phase yields the empty sequence, the orchestrator
stops successfully and without side effects: no download result, no
transform result, no persisted state and no escaping exception. -/
theorem run_noop_when_diff_empty (metadata : Metadata) (all_datasets : List Dataset)
    (net : Str → Option Csv)
    (h : step7_find_new_or_updated_files
      (step6_filter_hospital_datasets THEME_FILTER all_datasets) metadata = []) :
    run_complete_pipeline metadata all_datasets net = ⟨[], [], none, none⟩ := by
  simp [run_complete_pipeline, h]

/-- C9 witness: a catalog of one already-synced hospital dataset produces
an empty diff and the run returns the no-effect result. -/
theorem run_noop_when_diff_empty_witness :
    step7_find_new_or_updated_files
        (step6_filter_hospital_datasets THEME_FILTER [dsSynced]) mdSynced = [] ∧
      run_complete_pipeline mdSynced [dsSynced] (fun _ => none) = ⟨[], [], none, none⟩ :=
  ⟨by decide, run_noop_when_diff_empty mdSynced [dsSynced] (fun _ => none) (by decide)⟩

/-- C4: when the diff set is non-empty, its identifiers are pairwise
distinct (the data-model invariant) and the run completes with no
escaping exception, the persisted state is the prior state overwritten
with the identifier-to-marker pairs of the entire input diff set, so
every identifier of the diff set maps to that descriptor's modified
marker. -/
theorem state_update_covers_diff (metadata : Metadata) (all_datasets : List Dataset)
    (net : Str → Option Csv)
    (hn : ((step7_find_new_or_updated_files
        (step6_filter_hospital_datasets THEME_FILTER all_datasets) metadata).map
          (fun d => d.identifier)).Nodup)
    (hne : step7_find_new_or_updated_files
        (step6_filter_hospital_datasets THEME_FILTER all_datasets) metadata ≠ [])
    (hok : (run_complete_pipeline metadata all_datasets net).failure = none) :
    ∃ m, (run_complete_pipeline metadata all_datasets net).savedState = some m ∧
      ∀ d ∈ step7_find_new_or_updated_files
          (step6_filter_hospital_datasets THEME_FILTER all_datasets) metadata,
        lookupFile m.files d.identifier = some d.modified := by
  simp only [run_complete_pipeline] at hok ⊢
  rw [if_neg (by simpa using hne)] at hok ⊢
  cases h9 : step9_download_files_parallel net
      (step7_find_new_or_updated_files
        (step6_filter_hospital_datasets THEME_FILTER all_datasets) metadata) with
  | error e => simp [h9] at hok
  | ok download_results =>
    simp only [h9] at hok ⊢
    cases h11 : step11_process_files_parallel download_results with
    | error e => simp [h11] at hok
    | ok processed_results =>
      simp only [h11]
      refine ⟨_, rfl, ?_⟩
      intro d hd
      exact lookup_foldl_setFile_mem _ metadata.files d hn hd

/-- C4 witness: a concrete successful run over one new dataset ends with
a saved state that maps the dataset's identifier to its marker. -/
theorem state_update_covers_diff_witness :
    ((step7_find_new_or_updated_files
        (step6_filter_hospital_datasets THEME_FILTER [dsNew]) emptyMeta).map
          (fun d => d.identifier)).Nodup ∧
      step7_find_new_or_updated_files
        (step6_filter_hospital_datasets THEME_FILTER [dsNew]) emptyMeta ≠ [] ∧
      (run_complete_pipeline emptyMeta [dsNew] netOne).failure = none ∧
      (∃ m, (run_complete_pipeline emptyMeta [dsNew] netOne).savedState = some m ∧
        ∀ d ∈ step7_find_new_or_updated_files
            (step6_filter_hospital_datasets THEME_FILTER [dsNew]) emptyMeta,
          lookupFile m.files d.identifier = some d.modified) :=
  ⟨by decide, by decide, by decide,
    state_update_covers_diff emptyMeta [dsNew] netOne (by decide) (by decide) (by decide)⟩

/-- C3: at a concrete two-item batch whose first item fails (empty
distribution) while the second would succeed, the run aborts with that
single exception: the aggregate result carries no per-identifier
success/failure report (both result lists are empty) and the final state
write never happens (`savedState = none`), contradicting the claimed
failure-isolation contract. -/
theorem per_item_failure_aborts_run :
    run_complete_pipeline emptyMeta [dsNoDist, dsNew] netOne =
      ⟨[], [], none, some (PipelineError.noDistribution ['d'])⟩ := by
  decide

/-! Lemmas about the underscore-collapse loop and the run-squashing
formulation from the spec. -/

theorem dunderIn_cons_eq (c : Char) (rest : Str) :
    dunderIn (c :: rest) = (leadsWith dunder (c :: rest) || dunderIn rest) := rfl

theorem leadsWith_dunder (c1 c2 : Char) (rest : Str) :
    leadsWith dunder (c1 :: c2 :: rest) = (decide ('_' = c1) && decide ('_' = c2)) := by
  simp [dunder, leadsWith]

theorem dunderIn_tail (c : Char) (rest : Str) (h : dunderIn (c :: rest) = false) :
    dunderIn rest = false := by
  rw [dunderIn_cons_eq] at h
  exact (Bool.or_eq_false_iff.mp h).2

theorem replaceDunder_length_le : ∀ s : Str, (replaceDunder s).length ≤ s.length
  | [] => Nat.le_refl _
  | [_] => Nat.le_refl _
  | c1 :: c2 :: rest => by
    by_cases h : c1 = '_' ∧ c2 = '_'
    · simp only [replaceDunder, if_pos h, List.length_cons]
      have := replaceDunder_length_le rest
      omega
    · simp only [replaceDunder, if_neg h, List.length_cons]
      have := replaceDunder_length_le (c2 :: rest)
      simp only [List.length_cons] at this
      omega

theorem replaceDunder_length_lt :
    ∀ s : Str, dunderIn s = true → (replaceDunder s).length < s.length
  | [], h => by simp [dunderIn, dunder, hasSub, leadsWith] at h
  | [c], h => by simp [dunderIn, dunder, hasSub, leadsWith] at h
  | c1 :: c2 :: rest, h => by
    by_cases hc : c1 = '_' ∧ c2 = '_'
    · simp only [replaceDunder, if_pos hc, List.length_cons]
      have := replaceDunder_length_le rest
      omega
    · have h2 : dunderIn (c2 :: rest) = true := by
        rw [dunderIn_cons_eq, leadsWith_dunder] at h
        rcases Bool.or_eq_true_iff.mp h with h' | h'
        · simp only [Bool.and_eq_true, decide_eq_true_eq] at h'
          exact absurd ⟨h'.1.symm, h'.2.symm⟩ hc
        · exact h'
      simp only [replaceDunder, if_neg hc, List.length_cons]
      have := replaceDunder_length_lt (c2 :: rest) h2
      simp only [List.length_cons] at this
      omega

theorem collapseFuel_no_dunder :
    ∀ (n : Nat) (s : Str), s.length ≤ n → dunderIn (collapseFuel n s) = false
  | 0, s, h => by
    have hs : s = [] := by cases s <;> simp_all
    subst hs
    rfl
  | n + 1, s, h => by
    by_cases hd : dunderIn s = true
    · simp only [collapseFuel, hd, if_true]
      have := replaceDunder_length_lt s hd
      exact collapseFuel_no_dunder n (replaceDunder s) (by omega)
    · have hd' : dunderIn s = false := by revert hd; cases dunderIn s <;> simp
      simp [collapseFuel, hd']

theorem collapse_no_dunder (s : Str) : dunderIn (collapse s) = false :=
  collapseFuel_no_dunder s.length s (Nat.le_refl _)

theorem collapseFuel_of_no_dunder (n : Nat) (s : Str) (h : dunderIn s = false) :
    collapseFuel n s = s := by
  cases n <;> simp [collapseFuel, h]

theorem collapse_of_no_dunder (s : Str) (h : dunderIn s = false) : collapse s = s :=
  collapseFuel_of_no_dunder _ _ h

theorem squashRuns_nil : squashRuns [] = [] := by
  simp [squashRuns]

theorem squashRuns_cons (c : Char) (rest : Str) :
    squashRuns (c :: rest) =
      if c = '_' then '_' :: squashRuns (rest.dropWhile (fun x => decide (x = '_')))
      else c :: squashRuns rest := by
  simp [squashRuns]

theorem squashRuns_of_no_dunder : ∀ s : Str, dunderIn s = false → squashRuns s = s
  | [], _ => squashRuns_nil
  | c :: rest, h => by
    have hrest : dunderIn rest = false := dunderIn_tail c rest h
    rw [squashRuns_cons]
    by_cases hc : c = '_'
    · subst hc
      have hdrop : rest.dropWhile (fun x => decide (x = '_')) = rest := by
        cases rest with
        | nil => rfl
        | cons r rs =>
          have hr : ¬(r = '_') := by
            intro hr
            subst hr
            rw [dunderIn_cons_eq, leadsWith_dunder] at h
            simp at h
          simp [List.dropWhile_cons, hr]
      rw [if_pos rfl, hdrop, squashRuns_of_no_dunder rest hrest]
    · rw [if_neg hc, squashRuns_of_no_dunder rest hrest]

theorem replaceDunder_head : ∀ s : Str, (replaceDunder s).head? = s.head?
  | [] => rfl
  | [_] => rfl
  | c1 :: c2 :: rest => by
    by_cases h : c1 = '_' ∧ c2 = '_'
    · obtain ⟨h1, h2⟩ := h
      subst h1
      subst h2
      simp [replaceDunder]
    · simp [replaceDunder, if_neg h]

theorem replaceDunder_cons_ne (c : Char) (rest : Str) (hc : ¬(c = '_')) :
    replaceDunder (c :: rest) = c :: replaceDunder rest := by
  cases rest with
  | nil => rfl
  | cons c2 r =>
    simp only [replaceDunder]
    rw [if_neg (fun h => hc h.1)]

theorem replaceDunder_run : ∀ (k : Nat) (tail : Str), tail.head? ≠ some '_' →
    replaceDunder (List.replicate k '_' ++ tail) =
      List.replicate (k - k / 2) '_' ++ replaceDunder tail
  | 0, tail, _ => by simp
  | 1, tail, h => by
    cases tail with
    | nil => simp [replaceDunder]
    | cons t ts =>
      have ht : ¬(t = '_') := fun hh => h (by simp [hh])
      have h1 : List.replicate 1 '_' ++ (t :: ts) = '_' :: t :: ts := by simp
      rw [h1]
      simp only [replaceDunder]
      rw [if_neg (fun hh => ht hh.2)]
      simp [List.replicate]
  | k + 2, tail, h => by
    have hrep : List.replicate (k + 2) '_' ++ tail =
        '_' :: '_' :: (List.replicate k '_' ++ tail) := by
      simp [List.replicate]
    rw [hrep]
    have hstep : replaceDunder ('_' :: '_' :: (List.replicate k '_' ++ tail)) =
        '_' :: replaceDunder (List.replicate k '_' ++ tail) := by
      simp [replaceDunder]
    rw [hstep, replaceDunder_run k tail h]
    have harith : (k + 2) - (k + 2) / 2 = (k - k / 2) + 1 := by omega
    rw [harith, List.replicate_succ, List.cons_append]

theorem dropWhile_underscore_run : ∀ (j : Nat) (tail : Str),
    (List.replicate j '_' ++ tail).dropWhile (fun x => decide (x = '_')) =
      tail.dropWhile (fun x => decide (x = '_'))
  | 0, _ => by simp
  | j + 1, tail => by
    simp only [List.replicate_succ, List.cons_append]
    rw [List.dropWhile_cons_of_pos (by simp)]
    exact dropWhile_underscore_run j tail

theorem dropWhile_of_head_ne (tail : Str) (h : tail.head? ≠ some '_') :
    tail.dropWhile (fun x => decide (x = '_')) = tail := by
  cases tail with
  | nil => rfl
  | cons t ts =>
    have ht : ¬(t = '_') := fun hh => h (by simp [hh])
    simp [List.dropWhile_cons, ht]

theorem squashRuns_run (k : Nat) (tail : Str) (hk : 1 ≤ k) (h : tail.head? ≠ some '_') :
    squashRuns (List.replicate k '_' ++ tail) = '_' :: squashRuns tail := by
  obtain ⟨j, rfl⟩ : ∃ j, k = j + 1 := ⟨k - 1, by omega⟩
  simp only [List.replicate_succ, List.cons_append]
  rw [squashRuns_cons, if_pos rfl, dropWhile_underscore_run, dropWhile_of_head_ne tail h]

theorem underscore_decomp (rest : Str) :
    ∃ k tail, 1 ≤ k ∧ tail.head? ≠ some '_' ∧
      List.replicate k '_' ++ tail = '_' :: rest ∧ k + tail.length = rest.length + 1 := by
  refine ⟨(('_' :: rest).takeWhile (fun x => decide (x = '_'))).length,
    ('_' :: rest).dropWhile (fun x => decide (x = '_')), ?_, ?_, ?_, ?_⟩
  · rw [List.takeWhile_cons_of_pos (by simp)]
    simp
  · intro hcon
    have hmatch := List.head?_dropWhile_not (fun x => decide (x = '_')) ('_' :: rest)
    rw [hcon] at hmatch
    simp at hmatch
  · have hrep : ('_' :: rest).takeWhile (fun x => decide (x = '_')) =
        List.replicate (('_' :: rest).takeWhile (fun x => decide (x = '_'))).length '_' := by
      apply List.eq_replicate_of_mem
      intro b hb
      simpa using List.mem_takeWhile_imp hb
    rw [← hrep]
    exact List.takeWhile_append_dropWhile _ _
  · rw [List.takeWhile_cons_of_pos (by simp), List.dropWhile_cons_of_pos (by simp)]
    have hsplit := congrArg List.length
      (List.takeWhile_append_dropWhile (p := fun x => decide (x = '_')) (l := rest))
    rw [List.length_append] at hsplit
    simp only [List.length_cons]
    omega

theorem squash_replaceDunder_aux : ∀ (n : Nat) (s : Str), s.length ≤ n →
    squashRuns (replaceDunder s) = squashRuns s
  | 0, s, h => by
    have hs : s = [] := by cases s <;> simp_all
    subst hs
    rfl
  | n + 1, s, h => by
    cases s with
    | nil => rfl
    | cons c rest =>
      by_cases hc : c = '_'
      · subst hc
        obtain ⟨k, tail, hk1, htail, hsplit, hlen⟩ := underscore_decomp rest
        have hlenrest : rest.length + 1 ≤ n + 1 := by
          simpa using h
        have htlen : tail.length ≤ n := by omega
        calc squashRuns (replaceDunder ('_' :: rest))
            = squashRuns (replaceDunder (List.replicate k '_' ++ tail)) := by rw [hsplit]
          _ = squashRuns (List.replicate (k - k / 2) '_' ++ replaceDunder tail) := by
              rw [replaceDunder_run k tail htail]
          _ = '_' :: squashRuns (replaceDunder tail) := by
              refine squashRuns_run _ _ (by omega) ?_
              rw [replaceDunder_head]
              exact htail
          _ = '_' :: squashRuns tail := by rw [squash_replaceDunder_aux n tail htlen]
          _ = squashRuns (List.replicate k '_' ++ tail) :=
              (squashRuns_run k tail hk1 htail).symm
          _ = squashRuns ('_' :: rest) := by rw [hsplit]
      · have hrlen : rest.length ≤ n := by simpa using h
        rw [replaceDunder_cons_ne c rest hc, squashRuns_cons, if_neg hc, squashRuns_cons,
          if_neg hc, squash_replaceDunder_aux n rest hrlen]

theorem squash_replaceDunder (s : Str) :
    squashRuns (replaceDunder s) = squashRuns s :=
  squash_replaceDunder_aux s.length s (Nat.le_refl _)

theorem collapseFuel_squash : ∀ (n : Nat) (s : Str), s.length ≤ n →
    collapseFuel n s = squashRuns s
  | 0, s, h => by
    have hs : s = [] := by cases s <;> simp_all
    subst hs
    exact squashRuns_nil.symm
  | n + 1, s, h => by
    by_cases hd : dunderIn s = true
    · simp only [collapseFuel, hd, if_true]
      have hlt := replaceDunder_length_lt s hd
      rw [collapseFuel_squash n (replaceDunder s) (by omega)]
      exact squash_replaceDunder s
    · have hd' : dunderIn s = false := by revert hd; cases dunderIn s <;> simp
      simp only [collapseFuel, hd', Bool.false_eq_true, if_false]
      exact (squashRuns_of_no_dunder s hd').symm

theorem collapse_eq_squashRuns (s : Str) : collapse s = squashRuns s :=
  collapseFuel_squash s.length s (Nat.le_refl _)

/-! Characterization of the substring test, and claims C5 and C8. -/

theorem leadsWith_iff (n : Str) : ∀ h : Str, leadsWith n h = true ↔ ∃ post, h = n ++ post := by
  induction n with
  | nil =>
    intro h
    constructor
    · intro _
      exact ⟨h, rfl⟩
    · intro _
      rfl
  | cons a xs ih =>
    intro h
    cases h with
    | nil =>
      constructor
      · intro hc
        simp [leadsWith] at hc
      · rintro ⟨post, hp⟩
        exact absurd hp.symm (List.cons_ne_nil _ _)
    | cons b ys =>
      simp only [leadsWith, Bool.and_eq_true, decide_eq_true_eq, ih, List.cons_append,
        List.cons.injEq]
      constructor
      · rintro ⟨rfl, post, rfl⟩
        exact ⟨post, rfl, rfl⟩
      · rintro ⟨post, rfl, rfl⟩
        exact ⟨rfl, post, rfl⟩

theorem hasSub_iff (n : Str) : ∀ h : Str, hasSub n h = true ↔ ∃ pre post, h = pre ++ n ++ post := by
  intro h
  induction h with
  | nil =>
    simp only [hasSub, leadsWith_iff]
    constructor
    · rintro ⟨post, hp⟩
      exact ⟨[], post, hp⟩
    · rintro ⟨pre, post, hp⟩
      refine ⟨post, ?_⟩
      cases pre with
      | nil => simpa using hp
      | cons p ps => exact absurd hp.symm (List.cons_ne_nil _ _)
  | cons c rest ih =>
    simp only [hasSub, Bool.or_eq_true, leadsWith_iff, ih]
    constructor
    · rintro (⟨post, hp⟩ | ⟨pre, post, hp⟩)
      · exact ⟨[], post, by simpa using hp⟩
      · exact ⟨c :: pre, post, by simp [hp]⟩
    · rintro ⟨pre, post, hp⟩
      cases pre with
      | nil => exact Or.inl ⟨post, by simpa using hp⟩
      | cons p ps =>
        refine Or.inr ⟨ps, post, ?_⟩
        simp only [List.cons_append] at hp
        injection hp with h1 h2

/-- C5: the relevance filter is the stable `List.filter` of its per-item
condition (so input order is preserved and nothing else is changed), and
that condition holds exactly when the lowercased topic occurs as a
contiguous substring of the lowercased title, lowercased description,
the lowercase of some theme element or of some keyword element, or the
literal `hospital` occurs in the lowercased title or description. -/
theorem filter_relevance_characterization (topic : Str) (l : List Dataset) :
    step6_filter_hospital_datasets topic l =
        l.filter (is_hospital_related (lowerStr topic)) ∧
      ∀ d : Dataset,
        is_hospital_related (lowerStr topic) d = true ↔
          ((∃ pre post, lowerStr d.title = pre ++ lowerStr topic ++ post) ∨
            (∃ pre post, lowerStr d.description = pre ++ lowerStr topic ++ post) ∨
            (∃ t ∈ d.theme, ∃ pre post, lowerStr t = pre ++ lowerStr topic ++ post) ∨
            (∃ k ∈ d.keyword, ∃ pre post, lowerStr k = pre ++ lowerStr topic ++ post) ∨
            (∃ pre post, lowerStr d.title = pre ++ hospitalLit ++ post) ∨
            (∃ pre post, lowerStr d.description = pre ++ hospitalLit ++ post)) := by
  refine ⟨step6_eq_filter topic l, ?_⟩
  intro d
  simp only [is_hospital_related, Bool.or_eq_true, List.any_eq_true, hasSub_iff, or_assoc]

/-- C8: on a source file with a header row, the table transform succeeds
and outputs the header with the normalizer applied to every cell,
followed by the data rows unchanged and in their original order; the
total row count is preserved.  (The CSV parse/serialize layer is
abstracted: a file is its list of rows of cells.) -/
theorem transform_preserves_rows (header : List Str) (rows : List (List Str))
    (file_id : Str) :
    ∃ out, step11_process_single_file (header :: rows) file_id = Except.ok out ∧
      out.head? = some (header.map step10_clean_column_name) ∧
      out.tail = rows ∧
      out.length = (header :: rows).length :=
  ⟨(header.map step10_clean_column_name) :: rows, rfl, rfl, rfl, by simp⟩

/-! Claim C7: the normalizer's output never contains a double underscore. -/

theorem hasSub_append_right (n h t : Str) (hh : hasSub n h = true) :
    hasSub n (h ++ t) = true := by
  rw [hasSub_iff] at hh ⊢
  obtain ⟨pre, post, rfl⟩ := hh
  exact ⟨pre, post ++ t, by simp⟩

theorem dunderIn_stripLead (s : Str) (h : dunderIn s = false) :
    dunderIn (stripLead s) = false := by
  cases s with
  | nil => exact h
  | cons c rest =>
    by_cases hc : c = '_'
    · simp only [stripLead, if_pos hc]
      exact dunderIn_tail c rest h
    · simp only [stripLead, if_neg hc]
      exact h

theorem dunderIn_dropLast (s : Str) (h : dunderIn s = false) :
    dunderIn s.dropLast = false := by
  rcases eq_or_ne s [] with rfl | hne
  · simpa using h
  · cases hdl : dunderIn s.dropLast
    · rfl
    · have hcat := hasSub_append_right dunder s.dropLast [s.getLast hne] hdl
      rw [List.dropLast_concat_getLast hne] at hcat
      have h' : hasSub dunder s = false := h
      exact Bool.noConfusion (hcat.symm.trans h')

theorem dunderIn_stripTrail (s : Str) (h : dunderIn s = false) :
    dunderIn (stripTrail s) = false := by
  unfold stripTrail
  split
  · exact dunderIn_dropLast s h
  · exact h

/-- C7: for every input string, the normalizer's output contains no
occurrence of two consecutive underscores, and in particular a
multi-space input such as `A   B` collapses to `a_b`. -/
theorem normalizer_no_double_underscore :
    (∀ s : Str, dunderIn (step10_clean_column_name s) = false) ∧
      step10_clean_column_name ['A', ' ', ' ', ' ', 'B'] = ['a', '_', 'b'] := by
  constructor
  · intro s
    simp only [step10_clean_column_name]
    exact dunderIn_stripTrail _ (dunderIn_stripLead _ (collapse_no_dunder _))
  · decide

/-! Claim C6: the source normalizer implements the spec's five-step
algorithm.  The two formulations are proved equal pointwise: the three
deletions fuse into one filter, the six replacements fuse into one map,
and the iterated `replace("__", "_")` loop equals the one-pass
run-squashing function. -/

theorem char_toNat_ofNat_valid (n : Nat) (h : n.isValidChar) :
    (Char.ofNat n).toNat = n := by
  simp only [Char.ofNat, h, dite_true]
  simp only [Char.ofNatAux, Char.toNat, UInt32.toNat]
  simp

theorem toLower_toLower (c : Char) : (c.toLower).toLower = c.toLower := by
  simp only [Char.toLower]
  by_cases h : c.toNat ≥ 65 ∧ c.toNat ≤ 90
  · rw [if_pos h]
    have hv : (c.toNat + 32).isValidChar := by
      constructor
      omega
    rw [char_toNat_ofNat_valid _ hv, if_neg (by omega)]
  · rw [if_neg h, if_neg h]

theorem removes_eq_filter (s : Str) :
    removeChar backChar (removeChar quoteChar (removeChar apoChar s)) =
      s.filter (fun c => !(specRemoved c)) := by
  simp only [removeChar, List.filter_filter]
  apply List.filter_congr
  intro c _
  by_cases h1 : c = apoChar <;> by_cases h2 : c = quoteChar <;> by_cases h3 : c = backChar <;>
    simp [specRemoved, h1, h2, h3]

set_option maxHeartbeats 1600000 in
theorem replaces_eq_map (s : Str) :
    replaceChar ' ' (replaceChar '-' (replaceChar '&' (replaceChar '%'
        (replaceChar ')' (replaceChar '(' s))))) =
      s.map (fun c => if specReplaced c then '_' else c) := by
  simp only [replaceChar, List.map_map]
  apply List.map_congr_left
  intro c _
  simp only [Function.comp]
  by_cases h1 : c = '(' <;> by_cases h2 : c = ')' <;> by_cases h3 : c = '%' <;>
    by_cases h4 : c = '&' <;> by_cases h5 : c = '-' <;> by_cases h6 : c = ' ' <;>
    simp [specReplaced, h1, h2, h3, h4, h5, h6]

theorem step10_eq_spec_normalize (s : Str) :
    step10_clean_column_name s = spec_normalize s := by
  simp only [step10_clean_column_name, spec_normalize]
  rw [removes_eq_filter, replaces_eq_map, collapse_eq_squashRuns]

/-- C6: the normalizer is (as a Lean function) deterministic, pure and
total, and it implements the spec's algorithm exactly: it equals the
five-step spec formulation (lowercase; delete quote characters; replace
the six listed characters with underscores; collapse underscore runs;
strip one leading and one trailing underscore) on every input; moreover
the example headers evaluate as the spec requires, with the all-stripped
input yielding the empty string as a valid output. -/
theorem normalizer_matches_spec_alg :
    (∀ s : Str, step10_clean_column_name s = spec_normalize s) ∧
      step10_clean_column_name patientsName =
        ['p', 'a', 't', 'i', 'e', 'n', 't', 's', '_', 'n', 'a', 'm', 'e'] ∧
      step10_clean_column_name ['_', '_', '_'] = [] :=
  ⟨step10_eq_spec_normalize, by decide, by decide⟩

/-! Claim C10: idempotence of the normalizer.  The output alphabet is
characterized (all characters are lowercase fixpoints and none is a
deleted or replaced character), the output has no underscore runs and no
leading or trailing underscore, and each pipeline stage is the identity
on such strings. -/

theorem squashRuns_sublist_aux : ∀ (n : Nat) (s : Str), s.length ≤ n → List.Sublist (squashRuns s) s
  | 0, s, h => by
    have hs : s = [] := by cases s <;> simp_all
    subst hs
    simp [squashRuns_nil]
  | n + 1, s, h => by
    cases s with
    | nil => simp [squashRuns_nil]
    | cons a rest =>
      rw [squashRuns_cons]
      by_cases ha : a = '_'
      · subst ha
        rw [if_pos rfl]
        apply List.Sublist.cons₂
        have hsub := List.dropWhile_sublist (p := fun x => decide (x = '_')) (l := rest)
        have hlen : (rest.dropWhile (fun x => decide (x = '_'))).length ≤ n := by
          have h1 := hsub.length_le
          simp only [List.length_cons] at h
          omega
        exact (squashRuns_sublist_aux n _ hlen).trans hsub
      · rw [if_neg ha]
        apply List.Sublist.cons₂
        apply squashRuns_sublist_aux n rest
        simp only [List.length_cons] at h
        omega

theorem squashRuns_sublist (s : Str) : List.Sublist (squashRuns s) s :=
  squashRuns_sublist_aux s.length s (Nat.le_refl _)

theorem stripLead_subset (s : Str) : ∀ c ∈ stripLead s, c ∈ s := by
  intro c hc
  cases s with
  | nil => exact hc
  | cons a rest =>
    by_cases ha : a = '_'
    · simp only [stripLead, if_pos ha] at hc
      exact List.mem_cons_of_mem _ hc
    · simpa only [stripLead, if_neg ha] using hc

theorem stripTrail_subset (s : Str) : ∀ c ∈ stripTrail s, c ∈ s := by
  intro c hc
  unfold stripTrail at hc
  split at hc
  · exact List.dropLast_subset s hc
  · exact hc

theorem spec_pre_chars (s : Str) :
    ∀ c ∈ ((lowerStr s).filter (fun c => !(specRemoved c))).map
        (fun c => if specReplaced c then '_' else c),
      Char.toLower c = c ∧ specRemoved c = false ∧ specReplaced c = false := by
  intro c hc
  rw [List.mem_map] at hc
  obtain ⟨b, hb, rfl⟩ := hc
  rw [List.mem_filter] at hb
  obtain ⟨hbl, hbr⟩ := hb
  simp only [lowerStr, List.mem_map] at hbl
  obtain ⟨a, _, rfl⟩ := hbl
  by_cases hrep : specReplaced (Char.toLower a) = true
  · rw [if_pos hrep]
    refine ⟨by decide, by decide, by decide⟩
  · rw [if_neg hrep]
    refine ⟨toLower_toLower a, by simpa using hbr, by simpa using hrep⟩

theorem stripLead_head_ne (t : Str) (h : dunderIn t = false) :
    (stripLead t).head? ≠ some '_' := by
  cases t with
  | nil => simp [stripLead]
  | cons c rest =>
    by_cases hc : c = '_'
    · subst hc
      simp only [stripLead, if_pos rfl]
      cases rest with
      | nil => simp
      | cons r rs =>
        intro hcon
        have hr : r = '_' := by simpa using hcon
        subst hr
        rw [dunderIn_cons_eq, leadsWith_dunder] at h
        simp at h
    · simp only [stripLead, if_neg hc]
      intro hcon
      exact hc (by simpa using hcon)

theorem stripTrail_head_ne (u : Str) (h : u.head? ≠ some '_') :
    (stripTrail u).head? ≠ some '_' := by
  unfold stripTrail
  split
  · cases u with
    | nil => simp
    | cons a rest =>
      cases rest with
      | nil => simp
      | cons b rs =>
        rw [List.dropLast_cons₂]
        simpa using h
  · exact h

theorem last_two_dunder : ∀ u : Str, u.getLast? = some '_' →
    u.dropLast.getLast? = some '_' → dunderIn u = true
  | [], h1, _ => by simp at h1
  | [a], _, h2 => by simp at h2
  | a :: b :: rs, h1, h2 => by
    cases rs with
    | nil =>
      have hb : b = '_' := by simpa using h1
      have ha : a = '_' := by simpa using h2
      subst ha
      subst hb
      decide
    | cons x xs =>
      have h1' : (b :: x :: xs).getLast? = some '_' := by simpa using h1
      have h2' : (b :: x :: xs).dropLast.getLast? = some '_' := by
        rw [List.dropLast_cons₂, List.dropLast_cons₂, List.getLast?_cons_cons] at h2
        rw [List.dropLast_cons₂]
        exact h2
      have hrec := last_two_dunder (b :: x :: xs) h1' h2'
      rw [dunderIn_cons_eq]
      simp [hrec]

theorem stripTrail_getLast_ne (u : Str) (h : dunderIn u = false) :
    (stripTrail u).getLast? ≠ some '_' := by
  by_cases hl : u.getLast? = some '_'
  · simp only [stripTrail, if_pos hl]
    intro hcon
    have hdd := last_two_dunder u hl hcon
    rw [hdd] at h
    exact Bool.noConfusion h
  · simp only [stripTrail, if_neg hl]
    exact hl

theorem map_id_of_mem (l : Str) (f : Char → Char) (h : ∀ c ∈ l, f c = c) :
    l.map f = l := by
  induction l with
  | nil => rfl
  | cons a rest ih =>
    rw [List.map_cons, h a (List.mem_cons_self a rest),
      ih (fun c hc => h c (List.mem_cons_of_mem a hc))]

theorem stripLead_id (r : Str) (h : r.head? ≠ some '_') : stripLead r = r := by
  cases r with
  | nil => rfl
  | cons a rest =>
    have ha : ¬(a = '_') := fun hh => h (by simp [hh])
    simp [stripLead, ha]

theorem stripTrail_id (r : Str) (h : r.getLast? ≠ some '_') : stripTrail r = r := by
  simp [stripTrail, h]

theorem step10_fix (r : Str)
    (hchars : ∀ c ∈ r, Char.toLower c = c ∧ specRemoved c = false ∧ specReplaced c = false)
    (hdund : dunderIn r = false)
    (hhead : r.head? ≠ some '_')
    (hlast : r.getLast? ≠ some '_') :
    step10_clean_column_name r = r := by
  have h1 : lowerStr r = r := map_id_of_mem r Char.toLower (fun c hc => (hchars c hc).1)
  have hrm : ∀ x : Char, specRemoved x = true → removeChar x r = r := by
    intro x hx
    apply List.filter_eq_self.mpr
    intro a ha
    simp only [decide_eq_true_eq]
    intro heq
    subst heq
    rw [(hchars a ha).2.1] at hx
    exact Bool.noConfusion hx
  have hrp : ∀ x : Char, specReplaced x = true → replaceChar x r = r := by
    intro x hx
    apply map_id_of_mem
    intro c hc
    have hne : ¬(c = x) := by
      intro heq
      have hcf := (hchars c hc).2.2
      rw [heq, hx] at hcf
      exact Bool.noConfusion hcf
    simp [hne]
  simp only [step10_clean_column_name]
  rw [h1,
    hrm apoChar (by decide), hrm quoteChar (by decide), hrm backChar (by decide),
    hrp '(' (by decide), hrp ')' (by decide), hrp '%' (by decide),
    hrp '&' (by decide), hrp '-' (by decide), hrp ' ' (by decide),
    collapse_of_no_dunder r hdund, stripLead_id r hhead, stripTrail_id r hlast]

/-- C10: the header normalizer is idempotent: applying it to its own
output returns that output unchanged, because the output alphabet
contains no uppercase letter, none of the deleted or replaced
characters, no doubled underscore, and no leading or trailing
underscore. -/
theorem normalizer_idempotent (s : Str) :
    step10_clean_column_name (step10_clean_column_name s) = step10_clean_column_name s := by
  apply step10_fix
  · intro c hc
    rw [step10_eq_spec_normalize] at hc
    simp only [spec_normalize] at hc
    have hc2 := stripTrail_subset _ c hc
    have hc3 := stripLead_subset _ c hc2
    have hc4 := (squashRuns_sublist _).subset hc3
    exact spec_pre_chars s c hc4
  · simp only [step10_clean_column_name]
    exact dunderIn_stripTrail _ (dunderIn_stripLead _ (collapse_no_dunder _))
  · simp only [step10_clean_column_name]
    exact stripTrail_head_ne _ (stripLead_head_ne _ (collapse_no_dunder _))
  · simp only [step10_clean_column_name]
    exact stripTrail_getLast_ne _ (dunderIn_stripLead _ (collapse_no_dunder _))
